import Mathlib

/-!
Verification development for the OpenDocument.core format-detection /
decryption / translation pipeline.  The definitions below are shallow
embeddings of the C++ sources:

* `src/src/ContentTranslator.cpp` — the recursive XML→HTML content
  translator and its element/attribute rule tables;
* `src/odf/src/StyleTranslator.cpp` — style-name escaping and the style
  dependency recorder;
* `src/odr/src/Document.cpp` — the document facade, format detection and
  the OOXML decrypt path;
* `src/crypto/src/CryptoUtil.cpp` — the block-cipher decrypt wrappers
  (CBC / CFB modes over an abstract block primitive);
* `src/common/include/common/TablePosition.h` — spreadsheet cell
  addresses (implementation modelled from the spec, see below).
-/

/-! ## XML tree model

`tinyxml2` elements carry a name, an attribute list and a child list;
children are either text nodes or elements (other node kinds are ignored
by the translator's child loop, so they are not modelled). -/

inductive XMLNode where
  | text (value : String)
  | elem (name : String) (attrs : List (String × String)) (children : List XMLNode)
deriving Repr

/-- `XMLElement::FindAttribute` / attribute lookup: first entry with the
given name, if any. -/
def findAttr (attrs : List (String × String)) (key : String) : Option String :=
  match attrs with
  | [] => none
  | (k, v) :: rest => if k = key then some v else findAttr rest key

/-! ## Translation context

`Context.styleDependencies` is an association list from escaped style
name to its recorded dependency entries (the C++ uses an
`unordered_map<string, list<string>>`). -/

abbrev StyleDeps := List (String × List String)

/-- Map lookup on the style-dependency association list. -/
def lookupDeps (deps : StyleDeps) (key : String) : Option (List String) :=
  match deps with
  | [] => none
  | (k, v) :: rest => if k = key then some v else lookupDeps rest key

/-- `map[name].push_back(v)`: append `v` to the entry of `key`,
default-constructing an empty entry first when absent (as
`unordered_map::operator[]` does). -/
def depsAppend (deps : StyleDeps) (key : String) (v : String) : StyleDeps :=
  match deps with
  | [] => [(key, [v])]
  | (k, l) :: rest =>
      if k = key then (k, l ++ [v]) :: rest else (k, l) :: depsAppend rest key v

/-! ## Attribute translators (`ContentTranslator.cpp`)

Each translator produces the text it writes to the output stream and the
list of warnings it logs. -/

/-- `StyleAttributeTranslator::translate`: look the raw attribute value up
in the style-dependency map; unknown name logs a warning and writes
nothing; otherwise write `class="<deps reversed, each + space><name>"`. -/
def styleAttrTranslate (deps : StyleDeps) (styleName : String) : String × List String :=
  match lookupDeps deps styleName with
  | none => ("", ["unknown style: " ++ styleName])
  | some chain =>
      ("class=\"" ++ String.join (chain.reverse.map (fun a => a ++ " ")) ++ styleName ++ "\"", [])

/-- An entry of `DefaultElementTranslator::attributeTranslator`:
`drop` models a `nullptr` entry, `rename n` models
`DefaultAttributeTranslator(n)`, `styleClass` models
`StyleAttributeTranslator`. -/
inductive AttrRule where
  | drop
  | rename (toName : String)
  | styleClass
deriving Repr, DecidableEq

/-- Attribute-rule table lookup (`unordered_map::find`). -/
def lookupAttrRule (rules : List (String × AttrRule)) (key : String) : Option AttrRule :=
  match rules with
  | [] => none
  | (k, r) :: rest => if k = key then some r else lookupAttrRule rest key

/-- `DefaultElementTranslator`'s constructor installs style translators
for the two style-bearing attribute names. -/
def defaultAttrRules : List (String × AttrRule) :=
  [("text:style-name", AttrRule.styleClass), ("table:style-name", AttrRule.styleClass)]

/-- The data of a `DefaultElementTranslator` (possibly a subclass): the
output tag name, the injected attributes, and the attribute-rule table. -/
structure ElemSpec where
  tag : String
  newAttrs : List (String × String)
  attrRules : List (String × AttrRule)
deriving Repr, DecidableEq

/-- One source attribute inside `DefaultElementTranslator::translateStart`:
unknown attribute logs a warning; a `nullptr` rule is skipped before the
separating space is written; otherwise a space is written and the
attribute translator runs (note `DefaultAttributeTranslator` writes its
own leading space as well). -/
def translateOneAttr (spec : ElemSpec) (deps : StyleDeps) (elemName : String)
    (a : String × String) : String × List String :=
  match lookupAttrRule spec.attrRules a.1 with
  | none => ("", ["unhandled attribute: " ++ elemName ++ " " ++ a.1])
  | some AttrRule.drop => ("", [])
  | some (AttrRule.rename n) => (" " ++ " " ++ n ++ "=\"" ++ a.2 ++ "\"", [])
  | some AttrRule.styleClass =>
      let r := styleAttrTranslate deps a.2
      (" " ++ r.1, r.2)

/-- `DefaultElementTranslator::translateStart`. -/
def defaultTranslateStart (spec : ElemSpec) (deps : StyleDeps) (elemName : String)
    (attrs : List (String × String)) : String × List String :=
  let base := "<" ++ spec.tag ++
    String.join (spec.newAttrs.map (fun a => " " ++ a.1 ++ "=\"" ++ a.2 ++ "\""))
  let folded := attrs.foldl
    (fun (acc : String × List String) a =>
      let r := translateOneAttr spec deps elemName a
      (acc.1 ++ r.1, acc.2 ++ r.2))
    ("", [])
  (base ++ folded.1 ++ ">", folded.2)

/-! ## Custom element translators -/

/-- The whitespace characters `sscanf` skips (tinyxml2 parses `text:c`
via `sscanf("%lld")`). -/
def isSscanfSpace (c : Char) : Bool :=
  c = ' ' || c = '\t' || c = '\n' || c = '\r' || c = Char.ofNat 11 || c = Char.ofNat 12

/-- Decimal digit test. -/
def isDigitCh (c : Char) : Bool := '0' ≤ c && c ≤ '9'

/-- Value of a big-endian decimal digit string. -/
def digitsVal (ds : List Char) : Nat := ds.foldl (fun a c => a * 10 + (c.toNat - 48)) 0

/-- Clamp to the `int64_t` range (strtoll-style saturation). -/
def int64Clamp (v : Int) : Int := max (-(2 ^ 63)) (min (2 ^ 63 - 1) v)

/-- tinyxml2 `XMLUtil::ToInt64`, i.e. `sscanf(str, "%lld", ...)`: skip
leading whitespace, optional sign, then at least one decimal digit;
trailing characters are ignored; fails when no digit was converted. -/
def toInt64 (s : String) : Option Int :=
  let cs := s.toList.dropWhile isSscanfSpace
  let signed : Bool × List Char :=
    match cs with
    | '-' :: rest => (true, rest)
    | '+' :: rest => (false, rest)
    | _ => (false, cs)
  let ds := signed.2.takeWhile isDigitCh
  if ds.isEmpty then none
  else some (int64Clamp ((if signed.1 then (-1 : Int) else 1) * (digitsVal ds : Int)))

/-- `SpaceTranslator::translateStart`: `Int64Attribute("text:c", -1)`
(default `-1` when the attribute is missing or unparsable); write
nothing when `count <= 0`, else `count` space characters. -/
def spaceTranslateStart (attrs : List (String × String)) : String :=
  let count : Int :=
    match findAttr attrs "text:c" with
    | none => -1
    | some v => match toInt64 v with | none => -1 | some n => n
  if count ≤ 0 then "" else String.mk (List.replicate count.toNat ' ')

/-- `strlen(v) > 0 && v[0] == '#'`: the internal-reference test of
`LinkTranslator`. -/
def firstCharIsHash (v : String) : Bool :=
  match v.toList with
  | c :: _ => c = '#'
  | [] => false

/-- `LinkTranslator::translateStart`: open `<a`; with an `xlink:href`
attribute write ` href"<value>"` (sic, the source omits the `=`) and,
when the value starts with `#`, ` target"_self"` (also without `=`);
without the attribute log a warning; close the tag either way. -/
def linkTranslateStart (attrs : List (String × String)) : String × List String :=
  match findAttr attrs "xlink:href" with
  | some v =>
      ("<a" ++ " href\"" ++ v ++ "\"" ++
        (if firstCharIsHash v then " target\"_self\"" else "") ++ ">", [])
  | none => ("<a" ++ ">", ["empty link"])

/-- `BookmarkTranslator::translateStart`. -/
def bookmarkTranslateStart (attrs : List (String × String)) : String × List String :=
  match findAttr attrs "text:name" with
  | some v => ("<a" ++ " id=\"" ++ v ++ "\"" ++ ">", [])
  | none => ("<a" ++ ">", ["empty bookmark"])

/-- An entry of `DefaultContentTranslatorImpl::elementTranslator`. -/
inductive ElemRule where
  | defaultRule (spec : ElemSpec)
  | space
  | tab
  | link
  | bookmark
deriving Repr, DecidableEq

/-- Dispatch `translateStart` on the element rule. -/
def elemStart (r : ElemRule) (deps : StyleDeps) (elemName : String)
    (attrs : List (String × String)) : String × List String :=
  match r with
  | ElemRule.defaultRule s => defaultTranslateStart s deps elemName attrs
  | ElemRule.space => (spaceTranslateStart attrs, [])
  | ElemRule.tab => ("\t", [])
  | ElemRule.link => linkTranslateStart attrs
  | ElemRule.bookmark => bookmarkTranslateStart attrs

/-- Dispatch `translateEnd` on the element rule. -/
def elemEnd (r : ElemRule) : String :=
  match r with
  | ElemRule.defaultRule s => "</" ++ s.tag ++ ">"
  | ElemRule.space => ""
  | ElemRule.tab => ""
  | ElemRule.link => "</a>"
  | ElemRule.bookmark => "</a>"

/-- `TableTranslator`. -/
def tableSpec : ElemSpec :=
  ⟨"table", [("border", "0"), ("cellspacing", "0"), ("cellpadding", "0")],
    defaultAttrRules ++ [("table:name", AttrRule.drop), ("table:print", AttrRule.drop)]⟩

/-- `TableColumnTranslator`. -/
def tableColumnSpec : ElemSpec :=
  ⟨"col", [],
    defaultAttrRules ++
      [("table:default-cell-style-name", AttrRule.drop),
       ("table:number-columns-repeated", AttrRule.drop)]⟩

/-- `TableRowTranslator`. -/
def tableRowSpec : ElemSpec :=
  ⟨"tr", [], defaultAttrRules ++ [("table:number-rows-repeated", AttrRule.drop)]⟩

/-- `TableCellTranslator`. -/
def tableCellSpec : ElemSpec :=
  ⟨"td", [],
    defaultAttrRules ++
      [("table:formula", AttrRule.drop),
       ("table:number-columns-spanned", AttrRule.rename "colspan"),
       ("table:number-rows-spanned", AttrRule.rename "rowspan"),
       ("table:number-columns-repeated", AttrRule.drop),
       ("office:value", AttrRule.drop),
       ("office:value-type", AttrRule.drop),
       ("office:string-value", AttrRule.drop)]⟩

/-- `DefaultContentTranslatorImpl`'s element-rule table; `none` in the
second component models a `nullptr` entry (element known, no tags). -/
def elementTable : List (String × Option ElemRule) :=
  [("office:body", none),
   ("office:text", none),
   ("office:spreadsheet", none),
   ("text:p", some (ElemRule.defaultRule ⟨"p", [], defaultAttrRules⟩)),
   ("text:h", some (ElemRule.defaultRule ⟨"h", [], defaultAttrRules⟩)),
   ("text:span", some (ElemRule.defaultRule ⟨"span", [], defaultAttrRules⟩)),
   ("text:a", some ElemRule.link),
   ("text:s", some ElemRule.space),
   ("text:tab", some ElemRule.tab),
   ("text:line-break", some (ElemRule.defaultRule ⟨"br", [], defaultAttrRules⟩)),
   ("text:soft-page-break", none),
   ("text:list", some (ElemRule.defaultRule ⟨"ul", [], defaultAttrRules⟩)),
   ("text:list-item", some (ElemRule.defaultRule ⟨"li", [], defaultAttrRules⟩)),
   ("text:bookmark", some ElemRule.bookmark),
   ("text:bookmark-start", some ElemRule.bookmark),
   ("text:bookmark-end", none),
   ("text:sequence-decls", none),
   ("text:sequence-decl", none),
   ("table:table", some (ElemRule.defaultRule tableSpec)),
   ("table:table-column", some (ElemRule.defaultRule tableColumnSpec)),
   ("table:table-row", some (ElemRule.defaultRule tableRowSpec)),
   ("table:table-cell", some (ElemRule.defaultRule tableCellSpec)),
   ("table:tracked-changes", none),
   ("table:calculation-settings", none),
   ("table:iteration", none)]

/-- Element-rule table lookup (`unordered_map::find`): `none` means the
name is absent from the table, `some none` a present `nullptr` entry. -/
def lookupElemRule (table : List (String × Option ElemRule)) (key : String) :
    Option (Option ElemRule) :=
  match table with
  | [] => none
  | (k, r) :: rest => if k = key then some r else lookupElemRule rest key

mutual

/-- `DefaultContentTranslatorImpl::translate` on an element: look the
name up (absence logs a warning and leaves the translator null), run
`translateStart` if non-null, walk the children (text children are
written verbatim, element children recurse), run `translateEnd`. -/
def translateElem (deps : StyleDeps) (name : String) (attrs : List (String × String))
    (children : List XMLNode) : String × List String :=
  let found := lookupElemRule elementTable name
  let warn0 : List String :=
    match found with
    | none => ["unhandled element: " ++ name]
    | some _ => []
  let rule : Option ElemRule :=
    match found with
    | none => none
    | some r => r
  let startR : String × List String :=
    match rule with
    | none => ("", [])
    | some r => elemStart r deps name attrs
  let childR := translateChildren deps children
  let endS : String :=
    match rule with
    | none => ""
    | some r => elemEnd r
  (startR.1 ++ childR.1 ++ endS, warn0 ++ startR.2 ++ childR.2)
termination_by sizeOf children + 1

/-- The child loop of `DefaultContentTranslatorImpl::translate`. -/
def translateChildren (deps : StyleDeps) : List XMLNode → String × List String
  | [] => ("", [])
  | XMLNode.text s :: rest =>
      let r := translateChildren deps rest
      (s ++ r.1, r.2)
  | XMLNode.elem n a c :: rest =>
      let r1 := translateElem deps n a c
      let r2 := translateChildren deps rest
      (r1.1 ++ r2.1, r1.2 ++ r2.2)
termination_by l => sizeOf l

end

/-! ## String helper lemmas -/

/-- Folding append from an arbitrary accumulator factors through the
empty accumulator. -/
theorem strFoldl_shift (l : List String) : ∀ s : String,
    List.foldl (fun r t => r ++ t) s l = s ++ List.foldl (fun r t => r ++ t) "" l := by
  induction l with
  | nil => intro s; simp
  | cons a rest ih =>
      intro s
      simp only [List.foldl_cons]
      rw [ih (s ++ a), ih ("" ++ a)]
      simp [String.append_assoc]

/-- `String.join` unfolds on cons. -/
theorem strJoin_cons (s : String) (l : List String) :
    String.join (s :: l) = s ++ String.join l := by
  simp only [String.join, List.foldl_cons]
  rw [strFoldl_shift]
  simp

/-- Joining space-suffixed items and appending a last item is the same as
joining the space-interspersed list of all items. -/
theorem join_map_space_append (l : List String) (s : String) :
    String.join (l.map (fun a => a ++ " ")) ++ s = String.join (List.intersperse " " (l ++ [s])) := by
  induction l with
  | nil => simp [String.join]
  | cons a rest ih =>
    cases rest with
    | nil => simp [String.join, strJoin_cons, String.append_assoc]
    | cons b r2 =>
      simp only [List.map_cons, strJoin_cons, List.cons_append, List.intersperse_cons_cons] at *
      rw [← ih]
      simp [String.append_assoc]

/-! ## Claims about the content translator -/

/-- Claim C2, counterexample: with stored dependency chain
`deps[S2] = [S1, Text]` (parent-style-name first, family second, as the
Style Resolver records it), the style attribute translator emits the
chain in reverse of the stored order — `class="Text S1 S2"` — not in the
stored order `class="S1 Text S2"` the claim asserts. -/
theorem styleClassOrder_counterexample :
    styleAttrTranslate [("S2", ["S1", "Text"])] "S2" = ("class=\"Text S1 S2\"", []) ∧
    styleAttrTranslate [("S2", ["S1", "Text"])] "S2" ≠ ("class=\"S1 Text S2\"", []) := by
  have hA : styleAttrTranslate [("S2", ["S1", "Text"])] "S2" = ("class=\"Text S1 S2\"", []) := by
    rfl
  refine ⟨hA, ?_⟩
  rw [hA]
  decide

/-- Claim C2, amended: for every element carrying a style-name attribute
whose value is present in the StyleDependencyMap, translation emits a
single `class` attribute whose value lists the style's ancestor chain in
reverse of the order the Style Resolver stored it (family entry first,
then parent-style-name entry), followed by the style's own name as
written in the attribute; if the style name is not in the map, a warning
is logged and the style translator emits nothing for that attribute. -/
theorem styleClassOrder_amended :
    (∀ (deps : StyleDeps) (name : String) (chain : List String),
      lookupDeps deps name = some chain →
      styleAttrTranslate deps name =
        ("class=\"" ++ String.join (List.intersperse " " (chain.reverse ++ [name])) ++ "\"", [])) ∧
    (∀ (deps : StyleDeps) (name : String),
      lookupDeps deps name = none →
      styleAttrTranslate deps name = ("", ["unknown style: " ++ name])) := by
  constructor
  · intro deps name chain h
    simp [styleAttrTranslate, h, ← join_map_space_append, String.append_assoc]
  · intro deps name h
    simp [styleAttrTranslate, h]

/-- Claim C2, amended, witness: both branches of the amended claim at
concrete inputs. -/
theorem styleClassOrder_amended_witness :
    styleAttrTranslate [("S2", ["S1", "Text"])] "S2" =
      ("class=\"" ++ String.join (List.intersperse " " (["S1", "Text"].reverse ++ ["S2"])) ++ "\"", []) ∧
    styleAttrTranslate [] "S0" = ("", ["unknown style: " ++ "S0"]) :=
  ⟨styleClassOrder_amended.1 [("S2", ["S1", "Text"])] "S2" ["S1", "Text"] (by decide),
   styleClassOrder_amended.2 [] "S0" (by decide)⟩

/-- Claim C3: an element whose qualified name has no entry in the
element-rule table translates to its children's translation only — no
open or close tag — with an "unhandled element" warning logged first; in
particular, with a single text child the output is exactly the text
value.  Translation is a total function, so it never aborts. -/
theorem unknownElement_passthrough (name : String) (attrs : List (String × String))
    (children : List XMLNode) (deps : StyleDeps) (t : String)
    (h : lookupElemRule elementTable name = none) :
    translateElem deps name attrs children =
      ((translateChildren deps children).1,
        ("unhandled element: " ++ name) :: (translateChildren deps children).2) ∧
    translateElem deps name attrs [XMLNode.text t] =
      (t, ["unhandled element: " ++ name]) := by
  constructor
  · rw [translateElem]
    simp [h]
  · rw [translateElem]
    simp [h, translateChildren]

/-- Claim C3, witness: `foo:bar` is not in the element-rule table, and
translating `<foo:bar>hello</foo:bar>` yields exactly `hello` with one
warning. -/
theorem unknownElement_passthrough_witness :
    lookupElemRule elementTable "foo:bar" = none ∧
    translateElem [] "foo:bar" [] [XMLNode.text "hello"] =
      ("hello", ["unhandled element: foo:bar"]) :=
  ⟨by decide,
   (unknownElement_passthrough "foo:bar" [] [XMLNode.text "hello"] [] "hello" (by decide)).2⟩

/-- Claim C4, counterexample: a `text:s` element with no `text:c`
attribute and a single text child `x` translates to `x` — the missing
repeat count defaults to no output (not one space), and the child is
processed — refuting the claimed result of one space and no children. -/
theorem spaceDefault_counterexample :
    translateElem [] "text:s" [] [XMLNode.text "x"] = ("x", []) ∧
    translateElem [] "text:s" [] [XMLNode.text "x"] ≠ (" ", []) := by
  have hA : translateElem [] "text:s" [] [XMLNode.text "x"] = ("x", []) := by
    rw [translateElem]
    simp [translateChildren, elemStart, elemEnd, lookupElemRule, elementTable,
      spaceTranslateStart, findAttr]
  refine ⟨hA, ?_⟩
  rw [hA]
  decide

/-- Claim C4, amended: for every `text:s` element, translation emits
`count` literal space characters when the `text:c` attribute parses to
`count > 0`, and nothing at all when the attribute is missing,
malformed, zero, or negative (the parse default is `-1`, and any
`count <= 0` produces no output); the element's children are then
processed exactly as for any other element. -/
theorem spaceTranslate_amended :
    (∀ (deps : StyleDeps) (attrs : List (String × String)) (children : List XMLNode),
      translateElem deps "text:s" attrs children =
        (spaceTranslateStart attrs ++ (translateChildren deps children).1,
         (translateChildren deps children).2)) ∧
    (∀ attrs, findAttr attrs "text:c" = none → spaceTranslateStart attrs = "") ∧
    (∀ attrs v, findAttr attrs "text:c" = some v → toInt64 v = none →
      spaceTranslateStart attrs = "") ∧
    (∀ attrs v n, findAttr attrs "text:c" = some v → toInt64 v = some n → n ≤ 0 →
      spaceTranslateStart attrs = "") ∧
    (∀ attrs v n, findAttr attrs "text:c" = some v → toInt64 v = some n → 0 < n →
      spaceTranslateStart attrs = String.mk (List.replicate n.toNat ' ')) := by
  refine ⟨?_, ?_, ?_, ?_, ?_⟩
  · intro deps attrs children
    rw [translateElem]
    simp [lookupElemRule, elementTable, elemStart, elemEnd]
  · intro attrs h; simp [spaceTranslateStart, h]
  · intro attrs v h h2; simp [spaceTranslateStart, h, h2]
  · intro attrs v n h h2 h3; simp [spaceTranslateStart, h, h2, h3]
  · intro attrs v n h h2 h3
    simp [spaceTranslateStart, h, h2]
    intro hc
    omega

/-- Claim C4, amended, witness: all five parts at concrete inputs — a
`text:s` with a text child processes the child; missing, malformed,
negative and positive repeat counts behave as amended. -/
theorem spaceTranslate_amended_witness :
    translateElem [] "text:s" [] [XMLNode.text "y"] =
      (spaceTranslateStart [] ++ (translateChildren [] [XMLNode.text "y"]).1,
       (translateChildren [] [XMLNode.text "y"]).2) ∧
    spaceTranslateStart [] = "" ∧
    spaceTranslateStart [("text:c", "abc")] = "" ∧
    spaceTranslateStart [("text:c", "-2")] = "" ∧
    spaceTranslateStart [("text:c", "3")] = String.mk (List.replicate (3 : Int).toNat ' ') :=
  ⟨spaceTranslate_amended.1 [] [] [XMLNode.text "y"],
   spaceTranslate_amended.2.1 [] (by decide),
   spaceTranslate_amended.2.2.1 [("text:c", "abc")] "abc" (by decide) (by decide),
   spaceTranslate_amended.2.2.2.1 [("text:c", "-2")] "-2" (-2) (by decide) (by decide) (by decide),
   spaceTranslate_amended.2.2.2.2 [("text:c", "3")] "3" 3 (by decide) (by decide) (by decide)⟩

/-- Claim C5: evaluation of the hyperlink translator at the failing
inputs.  The source writes `out << " href\"" << value << "\""` — with no
`=` between the attribute name and the value (unlike every other
attribute emission in the file, e.g. the bookmark's ` id="..."`), and
likewise ` target"_self"`; so the emitted markup is `<a href"...">`
rather than an anchor tag with an `href` attribute.  The missing-href
branch (warning, anchor still opened and later closed) behaves as the
claim states. -/
theorem linkTranslate_eval :
    linkTranslateStart [("xlink:href", "#mark")] = ("<a href\"#mark\" target\"_self\">", []) ∧
    linkTranslateStart [("xlink:href", "http://x")] = ("<a href\"http://x\">", []) ∧
    linkTranslateStart [] = ("<a>", ["empty link"]) ∧
    elemEnd ElemRule.link = "</a>" ∧
    lookupElemRule elementTable "text:a" = some (some ElemRule.link) := by
  refine ⟨rfl, rfl, rfl, rfl, by decide⟩

/-! ## Style resolver (`StyleTranslator.cpp`) -/

/-- `StyleTranslator::escapeStyleName`: replace every `.` with `_`
(`StringUtil::findAndReplaceAll(result, ".", "_")`). -/
def escapeStyleName (name : String) : String :=
  String.mk (name.toList.map (fun c => if c = '.' then '_' else c))

/-- The static `elementToNameAttr` table of `StyleClassTranslator`: the
two recognized style-defining element kinds and the attribute that names
each. -/
def elementToNameAttr : List (String × String) :=
  [("style:default-style", "style:family"), ("style:style", "style:name")]

/-- The dependency-recording part of `StyleClassTranslator`
(`StyleTranslator.cpp` lines 63–93): resolve the name attribute (missing
name logs a warning and skips the element), then append, in order, the
escaped `style:parent-style-name` (if present) and the escaped
`style:family` (if present) to the style's dependency entry. -/
def styleClassDeps (deps : StyleDeps) (elemName : String)
    (attrs : List (String × String)) : StyleDeps × List String :=
  match findAttr elementToNameAttr elemName with
  | none => (deps, [])
  | some nameKey =>
    match findAttr attrs nameKey with
    | none => (deps, ["skipped style " ++ elemName ++ ". no name attribute."])
    | some rawName =>
      let name := escapeStyleName rawName
      let deps1 :=
        match findAttr attrs "style:parent-style-name" with
        | none => deps
        | some p => depsAppend deps name (escapeStyleName p)
      let deps2 :=
        match findAttr attrs "style:family" with
        | none => deps1
        | some f => depsAppend deps1 name (escapeStyleName f)
      (deps2, [])

/-- Appending to a map entry, then looking the key up, yields the old
entry (or `[]` when absent) with the value appended. -/
theorem lookupDeps_depsAppend_self (deps : StyleDeps) (k v : String) :
    lookupDeps (depsAppend deps k v) k = some ((lookupDeps deps k).getD [] ++ [v]) := by
  induction deps with
  | nil => simp [depsAppend, lookupDeps]
  | cons e rest ih =>
    by_cases h : e.1 = k
    · simp [depsAppend, lookupDeps, h]
    · simp [depsAppend, lookupDeps, h, ih]

/-- Claim C7: resolving a named style element `S2` declaring
`parent-style-name="S1"` and `family="Text"` records
`deps[S2] = [S1, Text]` — the escaped parent entry first, then the
escaped family entry — with no warning. -/
theorem styleDeps_parent_then_family (deps : StyleDeps) (s1 s2 : String)
    (h : lookupDeps deps (escapeStyleName s2) = none) :
    lookupDeps
      (styleClassDeps deps "style:style"
        [("style:name", s2), ("style:parent-style-name", s1), ("style:family", "Text")]).1
      (escapeStyleName s2) = some [escapeStyleName s1, escapeStyleName "Text"] ∧
    (styleClassDeps deps "style:style"
        [("style:name", s2), ("style:parent-style-name", s1), ("style:family", "Text")]).2 = [] := by
  constructor
  · simp only [styleClassDeps, elementToNameAttr, findAttr]
    simp [lookupDeps_depsAppend_self, h]
  · simp [styleClassDeps, elementToNameAttr, findAttr]

/-- Claim C7, witness: a fresh map and the style `Heading.2` with parent
`Base.Style` and family `Text`; both recorded entries are escaped. -/
theorem styleDeps_parent_then_family_witness :
    lookupDeps ([] : StyleDeps) (escapeStyleName "Heading.2") = none ∧
    lookupDeps
      (styleClassDeps [] "style:style"
        [("style:name", "Heading.2"), ("style:parent-style-name", "Base.Style"),
         ("style:family", "Text")]).1
      (escapeStyleName "Heading.2") =
        some [escapeStyleName "Base.Style", escapeStyleName "Text"] :=
  ⟨by decide,
   (styleDeps_parent_then_family [] "Base.Style" "Heading.2" (by decide)).1⟩

/-! ## OOXML decryption (`Document.cpp`, `OfficeOpenXmlImpl`) -/

/-- The `crypto::CfbCrypto::Util` interface as consumed by
`OfficeOpenXmlImpl::decrypt_`: key derivation, key verification against
the stored verifier, and bulk decryption (an external collaborator of
this translation unit). -/
structure CfbCryptoUtil where
  deriveKey : String → String
  verify : String → Bool
  decrypt : String → String → String

/-- The state of an `OfficeOpenXmlImpl`: the storage (named streams),
the inner `ooxml::OfficeOpenXml` document (abstract), and the cached
`FileMeta` (abstract). -/
structure OoxmlImpl where
  storage : List (String × String)
  document : String
  meta : String
deriving Repr, DecidableEq

/-- `StreamUtil::read(*storage->read(name))`. -/
def readStream (storage : List (String × String)) (name : String) : String :=
  (findAttr storage name).getD ""

/-- `OfficeOpenXmlImpl::decrypt_`: read `EncryptionInfo`, build the
crypto util from it, derive the key from the password, verify; on
failure return `false` at once; on success read `EncryptedPackage`,
decrypt it, and rebuild storage/document/meta from the decrypted
package.  `mkUtil` abstracts the `CfbCrypto::Util` constructor and
`reopen` the `ZipReader` + `ooxml::OfficeOpenXml` reconstruction.  The
third result component is the trace of storage streams read. -/
def ooxmlDecryptImpl (mkUtil : String → CfbCryptoUtil)
    (reopen : String → OoxmlImpl) (impl : OoxmlImpl) (password : String) :
    Bool × OoxmlImpl × List String :=
  let encryptionInfo := readStream impl.storage "EncryptionInfo"
  let util := mkUtil encryptionInfo
  let key := util.deriveKey password
  if util.verify key then
    let encryptedPackage := readStream impl.storage "EncryptedPackage"
    let decryptedPackage := util.decrypt encryptedPackage key
    (true, reopen decryptedPackage, ["EncryptionInfo", "EncryptedPackage"])
  else
    (false, impl, ["EncryptionInfo"])

/-- Claim C1: an OOXML decrypt attempt with a wrong password (the
derived key fails verification) returns `false`, reads only the
`EncryptionInfo` stream — never `EncryptedPackage` — and leaves the
document state (storage, inner document, metadata) unchanged; no
plaintext is produced. -/
theorem ooxmlDecrypt_wrongPassword (mkUtil : String → CfbCryptoUtil)
    (reopen : String → OoxmlImpl) (impl : OoxmlImpl) (password : String)
    (h : (mkUtil (readStream impl.storage "EncryptionInfo")).verify
          ((mkUtil (readStream impl.storage "EncryptionInfo")).deriveKey password) = false) :
    ooxmlDecryptImpl mkUtil reopen impl password = (false, impl, ["EncryptionInfo"]) ∧
    "EncryptedPackage" ∉ (ooxmlDecryptImpl mkUtil reopen impl password).2.2 := by
  have hA : ooxmlDecryptImpl mkUtil reopen impl password = (false, impl, ["EncryptionInfo"]) := by
    simp [ooxmlDecryptImpl, h]
  refine ⟨hA, ?_⟩
  rw [hA]
  simp

/-- Claim C1, witness: a crypto util whose verification always fails
(wrong password) on a concrete document state. -/
theorem ooxmlDecrypt_wrongPassword_witness :
    (CfbCryptoUtil.mk (fun _ => "k") (fun _ => false) (fun _ _ => "")).verify
      ((CfbCryptoUtil.mk (fun _ => "k") (fun _ => false) (fun _ _ => "")).deriveKey "guess") = false ∧
    ooxmlDecryptImpl (fun _ => CfbCryptoUtil.mk (fun _ => "k") (fun _ => false) (fun _ _ => ""))
      (fun _ => OoxmlImpl.mk [] "reopened" "remeta")
      (OoxmlImpl.mk [("EncryptionInfo", "info"), ("EncryptedPackage", "secret")] "doc" "meta")
      "guess" =
      (false, OoxmlImpl.mk [("EncryptionInfo", "info"), ("EncryptedPackage", "secret")] "doc" "meta",
        ["EncryptionInfo"]) :=
  ⟨rfl,
   (ooxmlDecrypt_wrongPassword (fun _ => CfbCryptoUtil.mk (fun _ => "k") (fun _ => false) (fun _ _ => ""))
     (fun _ => OoxmlImpl.mk [] "reopened" "remeta")
     (OoxmlImpl.mk [("EncryptionInfo", "info"), ("EncryptedPackage", "secret")] "doc" "meta")
     "guess" rfl).1⟩

/-! ## Format detection (`Document.cpp`, `openImpl`) -/

/-- The `odr::FileType` constructors this translation unit mentions. -/
inductive FileType where
  | UNKNOWN
  | LEGACY_WORD_DOCUMENT
  | LEGACY_POWERPOINT_PRESENTATION
  | LEGACY_EXCEL_WORKSHEETS
  | COMPOUND_FILE_BINARY_FORMAT
deriving Repr, DecidableEq

/-- `odr::FileMeta` as used by detection: the detected type and the
encrypted flag (default-constructed as unknown / not encrypted). -/
structure FileMeta where
  type : FileType
  encrypted : Bool
deriving Repr, DecidableEq

/-- What detection can construct: an `OpenDocumentImpl` over zip
storage, an `OfficeOpenXmlImpl` over zip storage, a plain
`Document::Impl` holding a legacy meta, or an `OfficeOpenXmlImpl` over
CFB storage (a possibly-encrypted OOXML container). -/
inductive OpenResult where
  | openDocument
  | officeOpenXml
  | legacy (meta : FileMeta)
  | cfbOfficeOpenXml
deriving Repr, DecidableEq

/-- The observable behavior of one input file under the probes
`openImpl` performs: does `ZipReader` succeed, do the two zip-based
constructors succeed, does `CfbReader` succeed, which named streams the
CFB container has, and does the CFB-based OOXML constructor succeed. -/
structure FileModel where
  isZip : Bool
  odfOk : Bool
  zipOoxmlOk : Bool
  isCfb : Bool
  hasWordDocument : Bool
  hasPowerPointDocument : Bool
  hasWorkbook : Bool
  cfbOoxmlOk : Bool
deriving Repr, DecidableEq

/-- The CFB half of `openImpl`: legacy streams first (`WordDocument`,
then `PowerPoint Document`, then `Workbook`, first match wins), else try
the OOXML constructor on the CFB storage; anything unrecognized falls
through to `throw UnknownFileType()` (modelled as `Except.error ()`). -/
def openCfbModel (f : FileModel) : Except Unit OpenResult :=
  if f.isCfb then
    if f.hasWordDocument then
      Except.ok (OpenResult.legacy (FileMeta.mk FileType.LEGACY_WORD_DOCUMENT false))
    else if f.hasPowerPointDocument then
      Except.ok (OpenResult.legacy (FileMeta.mk FileType.LEGACY_POWERPOINT_PRESENTATION false))
    else if f.hasWorkbook then
      Except.ok (OpenResult.legacy (FileMeta.mk FileType.LEGACY_EXCEL_WORKSHEETS false))
    else if f.cfbOoxmlOk then
      Except.ok OpenResult.cfbOfficeOpenXml
    else Except.error ()
  else Except.error ()

/-- `openImpl`: try `ZipReader` first (`OpenDocumentImpl`, then
`OfficeOpenXmlImpl`, each failed constructor swallowed), then fall
through to the CFB-based probes. -/
def openImplModel (f : FileModel) : Except Unit OpenResult :=
  if f.isZip then
    if f.odfOk then Except.ok OpenResult.openDocument
    else if f.zipOoxmlOk then Except.ok OpenResult.officeOpenXml
    else openCfbModel f
  else openCfbModel f

/-- Claim C9: detection tries sniffers in fixed priority order — a zip
container goes to ODF first, then OOXML, regardless of any CFB
properties; a non-zip CFB container is classified by named-stream
presence in the order `WordDocument`, `PowerPoint Document`, `Workbook`
(first match wins, later streams ignored); when nothing recognizes the
bytes, detection fails with the unknown-format error. -/
theorem detect_priority_order (f : FileModel) :
    (f.isZip = true → f.odfOk = true →
      openImplModel f = Except.ok OpenResult.openDocument) ∧
    (f.isZip = true → f.odfOk = false → f.zipOoxmlOk = true →
      openImplModel f = Except.ok OpenResult.officeOpenXml) ∧
    (f.isZip = false → f.isCfb = true → f.hasWordDocument = true →
      openImplModel f =
        Except.ok (OpenResult.legacy (FileMeta.mk FileType.LEGACY_WORD_DOCUMENT false))) ∧
    (f.isZip = false → f.isCfb = true → f.hasWordDocument = false →
      f.hasPowerPointDocument = true →
      openImplModel f =
        Except.ok (OpenResult.legacy (FileMeta.mk FileType.LEGACY_POWERPOINT_PRESENTATION false))) ∧
    (f.isZip = false → f.isCfb = true → f.hasWordDocument = false →
      f.hasPowerPointDocument = false → f.hasWorkbook = true →
      openImplModel f =
        Except.ok (OpenResult.legacy (FileMeta.mk FileType.LEGACY_EXCEL_WORKSHEETS false))) ∧
    (f.isZip = false → f.isCfb = false → openImplModel f = Except.error ()) := by
  refine ⟨?_, ?_, ?_, ?_, ?_, ?_⟩ <;> (intros; simp_all [openImplModel, openCfbModel])

/-- Claim C9, witness: each branch of the priority order at a concrete
file model (in particular an ODF zip that also looks like CFB still
detects as ODF, and a CFB with all three legacy streams detects as
legacy Word). -/
theorem detect_priority_order_witness :
    openImplModel (FileModel.mk true true true true true true true true) =
      Except.ok OpenResult.openDocument ∧
    openImplModel (FileModel.mk true false true false false false false false) =
      Except.ok OpenResult.officeOpenXml ∧
    openImplModel (FileModel.mk false false false true true true true true) =
      Except.ok (OpenResult.legacy (FileMeta.mk FileType.LEGACY_WORD_DOCUMENT false)) ∧
    openImplModel (FileModel.mk false false false true false true true true) =
      Except.ok (OpenResult.legacy (FileMeta.mk FileType.LEGACY_POWERPOINT_PRESENTATION false)) ∧
    openImplModel (FileModel.mk false false false true false false true true) =
      Except.ok (OpenResult.legacy (FileMeta.mk FileType.LEGACY_EXCEL_WORKSHEETS false)) ∧
    openImplModel (FileModel.mk false false false false false false false false) =
      Except.error () :=
  ⟨(detect_priority_order (FileModel.mk true true true true true true true true)).1 rfl rfl,
   (detect_priority_order (FileModel.mk true false true false false false false false)).2.1 rfl rfl rfl,
   (detect_priority_order (FileModel.mk false false false true true true true true)).2.2.1 rfl rfl rfl,
   (detect_priority_order (FileModel.mk false false false true false true true true)).2.2.2.1 rfl rfl rfl rfl,
   (detect_priority_order (FileModel.mk false false false true false false true true)).2.2.2.2.1 rfl rfl rfl rfl rfl,
   (detect_priority_order (FileModel.mk false false false false false false false false)).2.2.2.2.2 rfl rfl⟩

/-! ## Document facade (`Document.cpp`, public `odr::Document` surface)

Every public operation wraps its `impl_` call in `try { ... } catch
(...) { return fallback; }`; an impl call that may throw is modelled as
an `Except Unit` value, and the facade converts it to a plain result. -/

/-- The `try { return impl; } catch (...) { return fallback; }` pattern
shared by all facade operations. -/
def facadeCatch (fallback : α) (r : Except Unit α) : α :=
  match r with
  | Except.ok v => v
  | Except.error _ => fallback

/-- `Document::open`: wraps `openImpl`; any failure yields `nullptr`. -/
def documentOpen (r : Except Unit OpenResult) : Option OpenResult :=
  match r with
  | Except.ok v => some v
  | Except.error _ => none

/-- `Document::type`. -/
def documentType (r : Except Unit FileType) : FileType := facadeCatch FileType.UNKNOWN r

/-- `Document::encrypted`. -/
def documentEncrypted (r : Except Unit Bool) : Bool := facadeCatch false r

/-- `Document::decrypted`. -/
def documentDecrypted (r : Except Unit Bool) : Bool := facadeCatch false r

/-- `Document::canTranslate`. -/
def documentCanTranslate (r : Except Unit Bool) : Bool := facadeCatch false r

/-- `Document::canEdit`. -/
def documentCanEdit (r : Except Unit Bool) : Bool := facadeCatch false r

/-- `Document::canSave`. -/
def documentCanSave (r : Except Unit Bool) : Bool := facadeCatch false r

/-- `Document::decrypt`. -/
def documentDecrypt (r : Except Unit Bool) : Bool := facadeCatch false r

/-- `Document::translate`. -/
def documentTranslate (r : Except Unit Bool) : Bool := facadeCatch false r

/-- `Document::edit`. -/
def documentEdit (r : Except Unit Bool) : Bool := facadeCatch false r

/-- `Document::save`. -/
def documentSave (r : Except Unit Bool) : Bool := facadeCatch false r

/-- Claim C6: no public facade operation propagates a failure — each is
a total function of the (possibly throwing) impl outcome; on an internal
failure the capability queries (`canTranslate`, `canEdit`, `canSave`,
`decrypted`, `encrypted`) return `false`, `type` returns `UNKNOWN`,
`open` returns null, and `decrypt` / `translate` / `edit` / `save`
return the boolean failure result `false`; on a non-failing impl call
each returns the impl's current state unchanged. -/
theorem facade_no_propagation :
    (∀ e, documentType (Except.error e) = FileType.UNKNOWN) ∧
    (∀ t, documentType (Except.ok t) = t) ∧
    (∀ e, documentOpen (Except.error e) = none) ∧
    (∀ v, documentOpen (Except.ok v) = some v) ∧
    (∀ e, documentEncrypted (Except.error e) = false) ∧
    (∀ b, documentEncrypted (Except.ok b) = b) ∧
    (∀ e, documentDecrypted (Except.error e) = false) ∧
    (∀ b, documentDecrypted (Except.ok b) = b) ∧
    (∀ e, documentCanTranslate (Except.error e) = false) ∧
    (∀ b, documentCanTranslate (Except.ok b) = b) ∧
    (∀ e, documentCanEdit (Except.error e) = false) ∧
    (∀ b, documentCanEdit (Except.ok b) = b) ∧
    (∀ e, documentCanSave (Except.error e) = false) ∧
    (∀ b, documentCanSave (Except.ok b) = b) ∧
    (∀ e, documentDecrypt (Except.error e) = false) ∧
    (∀ b, documentDecrypt (Except.ok b) = b) ∧
    (∀ e, documentTranslate (Except.error e) = false) ∧
    (∀ b, documentTranslate (Except.ok b) = b) ∧
    (∀ e, documentEdit (Except.error e) = false) ∧
    (∀ b, documentEdit (Except.ok b) = b) ∧
    (∀ e, documentSave (Except.error e) = false) ∧
    (∀ b, documentSave (Except.ok b) = b) := by
  refine ⟨?_, ?_, ?_, ?_, ?_, ?_, ?_, ?_, ?_, ?_, ?_, ?_, ?_, ?_, ?_, ?_, ?_, ?_, ?_, ?_, ?_, ?_⟩ <;>
    (intro x; rfl)

/-! ## Block-cipher decrypt wrappers (`crypto/src/CryptoUtil.cpp`)

`decryptAES` / `decryptTripleDES` run the CBC decryption mode,
`decryptBlowfish` the CFB decryption mode, over an abstract block
primitive (the raw AES / Triple-DES / Blowfish block functions are the
external crypto library's, out of scope); each processes the input in
place into a result of the input's size — no padding is stripped.
Bytes are modelled as `Nat` values. -/

def xorBytes (a b : List Nat) : List Nat := List.zipWith (fun x y => (x ^^^ y) % 256) a b

def cbcDecryptGo (D : List Nat → List Nat) (bsz : Nat) (prev : List Nat) : List Nat → List Nat
  | [] => []
  | c :: cs =>
      let b := (c :: cs).take bsz
      xorBytes (D b) prev ++ cbcDecryptGo D bsz b (cs.drop (bsz - 1))
termination_by l => l.length
decreasing_by simp [List.length_drop]; omega

def cfbDecryptGo (E : List Nat → List Nat) (bsz : Nat) (reg : List Nat) : List Nat → List Nat
  | [] => []
  | c :: cs =>
      let b := (c :: cs).take bsz
      xorBytes b (E reg) ++ cfbDecryptGo E bsz b (cs.drop (bsz - 1))
termination_by l => l.length
decreasing_by simp [List.length_drop]; omega

theorem cbcDecryptGo_length (D : List Nat → List Nat) (bsz : Nat) (hb : 0 < bsz)
    (hD : ∀ b : List Nat, b.length = bsz → (D b).length = bsz) :
    ∀ (n : Nat) (ct prev : List Nat), ct.length ≤ n → prev.length = bsz →
      ct.length % bsz = 0 → (cbcDecryptGo D bsz prev ct).length = ct.length := by
  intro n
  induction n with
  | zero =>
    intro ct prev hle _ _
    have : ct = [] := List.eq_nil_of_length_eq_zero (Nat.le_zero.mp hle)
    subst this
    simp [cbcDecryptGo]
  | succ n ih =>
    intro ct prev hle hprev hmod
    cases ct with
    | nil => simp [cbcDecryptGo]
    | cons c cs =>
      have hpos : 0 < (c :: cs).length := by simp
      have hdvd : bsz ∣ (c :: cs).length := Nat.dvd_of_mod_eq_zero hmod
      have hlen : bsz ≤ (c :: cs).length := Nat.le_of_dvd hpos hdvd
      have hclen : (c :: cs).length = cs.length + 1 := by simp
      have htake : ((c :: cs).take bsz).length = bsz := by
        simp [List.length_take]
        omega
      have hdrop : (cs.drop (bsz - 1)).length = (c :: cs).length - bsz := by
        simp [List.length_drop, List.length_cons]
        omega
      have hmod2 : (cs.drop (bsz - 1)).length % bsz = 0 := by
        rw [hdrop]
        exact Nat.dvd_iff_mod_eq_zero.mp (Nat.dvd_sub' hdvd dvd_rfl)
      have hxor : (xorBytes (D ((c :: cs).take bsz)) prev).length = bsz := by
        simp [xorBytes, List.length_zipWith, hD _ htake, hprev]
      rw [cbcDecryptGo]
      simp only [List.length_append]
      rw [hxor, ih (cs.drop (bsz - 1)) ((c :: cs).take bsz) (by rw [hdrop]; omega)
        htake hmod2]
      rw [hdrop]
      omega

theorem cfbDecryptGo_length (E : List Nat → List Nat) (bsz : Nat) (hb : 0 < bsz)
    (hE : ∀ b : List Nat, b.length = bsz → (E b).length = bsz) :
    ∀ (n : Nat) (ct reg : List Nat), ct.length ≤ n → reg.length = bsz →
      (cfbDecryptGo E bsz reg ct).length = ct.length := by
  intro n
  induction n with
  | zero =>
    intro ct reg hle _
    have : ct = [] := List.eq_nil_of_length_eq_zero (Nat.le_zero.mp hle)
    subst this
    simp [cfbDecryptGo]
  | succ n ih =>
    intro ct reg hle hreg
    cases ct with
    | nil => simp [cfbDecryptGo]
    | cons c cs =>
      have hxor : (xorBytes ((c :: cs).take bsz) (E reg)).length = min bsz (c :: cs).length := by
        simp only [xorBytes, List.length_zipWith, List.length_take, hE reg hreg,
          List.length_cons]
        omega
      rw [cfbDecryptGo]
      simp only [List.length_append]
      by_cases hge : bsz ≤ (c :: cs).length
      · have htake : ((c :: cs).take bsz).length = bsz := by
          rw [List.length_take]
          exact Nat.min_eq_left hge
        have hdrop : (cs.drop (bsz - 1)).length = (c :: cs).length - bsz := by
          rw [List.length_drop]
          simp only [List.length_cons]
          omega
        rw [hxor, ih (cs.drop (bsz - 1)) ((c :: cs).take bsz) (by rw [hdrop]; omega) htake]
        rw [hdrop]
        omega
      · have hdropnil : cs.drop (bsz - 1) = [] := by
          apply List.drop_eq_nil_of_le
          simp only [List.length_cons] at hge ⊢
          omega
        rw [hxor, hdropnil]
        simp only [cfbDecryptGo, List.length_nil]
        simp only [List.length_cons] at hge ⊢
        omega

/-- `CryptoUtil::decryptAES(key, iv, input)`: AES in CBC mode
(`CBC_Mode<AES>::Decryption`, 16-byte blocks) processing `input.size()`
bytes in place. -/
def decryptAES (aesDecryptBlock : List Nat → List Nat → List Nat)
    (key iv input : List Nat) : List Nat :=
  cbcDecryptGo (aesDecryptBlock key) 16 iv input

/-- `CryptoUtil::decryptTripleDES(key, iv, input)`: Triple-DES in CBC
mode (`CBC_Mode<DES_EDE3>::Decryption`, 8-byte blocks). -/
def decryptTripleDES (desEde3DecryptBlock : List Nat → List Nat → List Nat)
    (key iv input : List Nat) : List Nat :=
  cbcDecryptGo (desEde3DecryptBlock key) 8 iv input

/-- `CryptoUtil::decryptBlowfish(key, iv, input)`: Blowfish in CFB mode
(`CFB_Mode<Blowfish>::Decryption`, 8-byte feedback register; CFB
decryption applies the forward block function to the register). -/
def decryptBlowfish (blowfishEncryptBlock : List Nat → List Nat → List Nat)
    (key iv input : List Nat) : List Nat :=
  cfbDecryptGo (blowfishEncryptBlock key) 8 iv input

/-- Claim C10: for every key, IV and input of valid cipher-parameter
sizes (IV of block length; for the CBC ciphers an input that is a
multiple of the block length — CFB takes any length), each decrypt
wrapper returns exactly as many bytes as its input: no PKCS or other
padding is stripped from the decrypted result. -/
theorem blockDecrypt_length_preserving :
    (∀ (aesDecryptBlock : List Nat → List Nat → List Nat) (key iv input : List Nat),
      (∀ b : List Nat, b.length = 16 → (aesDecryptBlock key b).length = 16) →
      iv.length = 16 → input.length % 16 = 0 →
      (decryptAES aesDecryptBlock key iv input).length = input.length) ∧
    (∀ (desEde3DecryptBlock : List Nat → List Nat → List Nat) (key iv input : List Nat),
      (∀ b : List Nat, b.length = 8 → (desEde3DecryptBlock key b).length = 8) →
      iv.length = 8 → input.length % 8 = 0 →
      (decryptTripleDES desEde3DecryptBlock key iv input).length = input.length) ∧
    (∀ (blowfishEncryptBlock : List Nat → List Nat → List Nat) (key iv input : List Nat),
      (∀ b : List Nat, b.length = 8 → (blowfishEncryptBlock key b).length = 8) →
      iv.length = 8 →
      (decryptBlowfish blowfishEncryptBlock key iv input).length = input.length) := by
  refine ⟨?_, ?_, ?_⟩
  · intro aesDecryptBlock key iv input hD hiv hmod
    exact cbcDecryptGo_length (aesDecryptBlock key) 16 (by omega) hD input.length input iv
      le_rfl hiv hmod
  · intro desEde3DecryptBlock key iv input hD hiv hmod
    exact cbcDecryptGo_length (desEde3DecryptBlock key) 8 (by omega) hD input.length input iv
      le_rfl hiv hmod
  · intro blowfishEncryptBlock key iv input hE hiv
    exact cfbDecryptGo_length (blowfishEncryptBlock key) 8 (by omega) hE input.length input iv
      le_rfl hiv

/-- Claim C10, witness: identity block primitives, zero IVs, a 32-byte
AES input, a 16-byte Triple-DES input and a 13-byte Blowfish input. -/
theorem blockDecrypt_length_preserving_witness :
    (List.replicate 16 (0 : Nat)).length = 16 ∧
    (List.replicate 32 (0 : Nat)).length % 16 = 0 ∧
    (decryptAES (fun _ b => b) [] (List.replicate 16 0) (List.replicate 32 0)).length =
      (List.replicate 32 (0 : Nat)).length ∧
    (decryptTripleDES (fun _ b => b) [] (List.replicate 8 0) (List.replicate 16 0)).length =
      (List.replicate 16 (0 : Nat)).length ∧
    (decryptBlowfish (fun _ b => b) [] (List.replicate 8 0) (List.replicate 13 0)).length =
      (List.replicate 13 (0 : Nat)).length :=
  ⟨by decide, by decide,
   blockDecrypt_length_preserving.1 (fun _ b => b) [] (List.replicate 16 0) (List.replicate 32 0)
     (fun _ h => h) (by decide) (by decide),
   blockDecrypt_length_preserving.2.1 (fun _ b => b) [] (List.replicate 8 0) (List.replicate 16 0)
     (fun _ h => h) (by decide) (by decide),
   blockDecrypt_length_preserving.2.2 (fun _ b => b) [] (List.replicate 8 0) (List.replicate 13 0)
     (fun _ h => h) (by decide)⟩

/-! ## TablePosition (spec-modelled)

Only the header `common/include/common/TablePosition.h` is under `src/`;
the implementation (`to_col_num`, `to_col_string`, the string
constructor and `toString`) is modelled from spec.md sections 3 and 8. -/

/-- Uppercase column letter test. -/
def isUpperAZ (c : Char) : Bool := 'A' ≤ c && c ≤ 'Z'

/-- Lowercase column letter test. -/
def isLowerAZ (c : Char) : Bool := 'a' ≤ c && c ≤ 'z'

/-- Column letter test (decoding is case-insensitive). -/
def isColLetter (c : Char) : Bool := isUpperAZ c || isLowerAZ c

/-- Modelled from the spec: the base-26 digit value of one column
letter, `A`/`a` ↦ 1 … `Z`/`z` ↦ 26 (case-insensitive). -/
def colCharVal (c : Char) : Nat := if isUpperAZ c then c.toNat - 64 else c.toNat - 96

/-- Modelled from the spec: `to_col_num` on the letter run — bijective
base-26 accumulation (so `A` ↦ 1, `Z` ↦ 26, `AA` ↦ 27), before the
final shift to the 0-based column. -/
def colVal (ls : List Char) : Nat := ls.foldl (fun a c => a * 26 + colCharVal c) 0

/-- Modelled from the spec: `TablePosition(const std::string &)` /
`fromString` — split the string into a column-letter run and a decimal
row; fail on an empty letter run, an empty or non-decimal row, or a
zero row; `A1` decodes to `(row 0, col 0)`. -/
def tablePositionFromString (s : String) : Option (Nat × Nat) :=
  let cs := s.toList
  let letters := cs.takeWhile isColLetter
  let digits := cs.drop letters.length
  if letters.isEmpty then none
  else if digits.isEmpty then none
  else if !digits.all isDigitCh then none
  else
    let rowNum := digitsVal digits
    if rowNum = 0 then none
    else some (rowNum - 1, colVal letters - 1)

/-- Little-endian bijective base-26 digits (each in 1..26) of a
positive number; `0` has no digits. -/
def bijDigits (m : Nat) : List Nat :=
  if m = 0 then [] else ((m - 1) % 26 + 1) :: bijDigits ((m - 1) / 26)
termination_by m
decreasing_by
  have : (m - 1) / 26 ≤ m - 1 := Nat.div_le_self _ _
  omega

/-- Modelled from the spec: `to_col_string` of the 1-shifted column —
uppercase letters, most significant first. -/
def colLetters (m : Nat) : List Char :=
  (bijDigits m).reverse.map (fun d => Char.ofNat (64 + d))

/-- Little-endian decimal digits of a positive number; `0` has no
digits. -/
def decDigits (n : Nat) : List Nat :=
  if n = 0 then [] else (n % 10) :: decDigits (n / 10)
termination_by n
decreasing_by
  exact Nat.div_lt_self (by omega) (by omega)

/-- Decimal digit characters of the 1-based row, most significant
first. -/
def rowChars (r : Nat) : List Char :=
  (decDigits r).reverse.map (fun d => Char.ofNat (48 + d))

/-- Modelled from the spec: `toString` — column letters then the 1-based
row in decimal. -/
def tablePositionToString (p : Nat × Nat) : String :=
  String.mk (colLetters (p.2 + 1) ++ rowChars (p.1 + 1))

/-- The canonical valid cell references: `[A-Z]+[1-9][0-9]*`. -/
def validCellRef (s : String) : Bool :=
  let cs := s.toList
  let letters := cs.takeWhile isUpperAZ
  let digits := cs.drop letters.length
  !letters.isEmpty && !digits.isEmpty && digits.all isDigitCh &&
    decide (digits.head? ≠ some '0')

/-- Lowercase an uppercase letter, leave other characters alone. -/
def lowerCh (c : Char) : Char :=
  if isUpperAZ c then Char.ofNat (c.toNat + 32) else c

def ofBijLE (es : List Nat) : Nat := es.foldr (fun d a => a * 26 + d) 0

def ofDecLE (es : List Nat) : Nat := es.foldr (fun d a => a * 10 + d) 0

theorem bijDigits_ofBijLE : ∀ es : List Nat, (∀ d ∈ es, 1 ≤ d ∧ d ≤ 26) →
    bijDigits (ofBijLE es) = es := by
  intro es
  induction es with
  | nil => intro _; simp [ofBijLE, bijDigits]
  | cons d tail ih =>
    intro h
    have hd : 1 ≤ d ∧ d ≤ 26 := h d (by simp)
    have htail := ih (fun x hx => h x (by simp [hx]))
    have hval : ofBijLE (d :: tail) = ofBijLE tail * 26 + d := by
      simp [ofBijLE]
    rw [hval, bijDigits]
    have hne : ¬ (ofBijLE tail * 26 + d = 0) := by omega
    simp only [hne, if_false]
    have h1 : (ofBijLE tail * 26 + d - 1) % 26 + 1 = d := by
      have : ofBijLE tail * 26 + d - 1 = ofBijLE tail * 26 + (d - 1) := by omega
      rw [this, Nat.mul_comm, Nat.mul_add_mod]
      have : (d - 1) % 26 = d - 1 := Nat.mod_eq_of_lt (by omega)
      omega
    have h2 : (ofBijLE tail * 26 + d - 1) / 26 = ofBijLE tail := by
      have : ofBijLE tail * 26 + d - 1 = ofBijLE tail * 26 + (d - 1) := by omega
      rw [this, Nat.mul_comm, Nat.mul_add_div (by omega)]
      have : (d - 1) / 26 = 0 := Nat.div_eq_of_lt (by omega)
      omega
    rw [h1, h2, htail]

theorem ofDecLE_pos : ∀ (es : List Nat) (k : Nat), es.getLast? = some k → k ≠ 0 →
    1 ≤ ofDecLE es := by
  intro es
  induction es with
  | nil => intro k hk; simp at hk
  | cons d tail ih =>
    intro k hk hkne
    cases tail with
    | nil =>
      simp at hk
      simp [ofDecLE]
      omega
    | cons t ts =>
      have hk2 : (t :: ts).getLast? = some k := by
        rw [← hk]
        exact (List.getLast?_cons_cons ..).symm ▸ rfl
      have := ih k hk2 hkne
      simp [ofDecLE] at this ⊢
      omega

theorem decDigits_ofDecLE : ∀ es : List Nat, (∀ d ∈ es, d ≤ 9) →
    (∀ k, es.getLast? = some k → k ≠ 0) →
    decDigits (ofDecLE es) = es := by
  intro es
  induction es with
  | nil => intro _ _; simp [ofDecLE, decDigits]
  | cons d tail ih =>
    intro h hlast
    have hd : d ≤ 9 := h d (by simp)
    cases tail with
    | nil =>
      have hdne : d ≠ 0 := hlast d (by simp)
      have hval : ofDecLE [d] = d := by simp [ofDecLE]
      rw [hval, decDigits]
      simp only [hdne, if_false]
      have h1 : d % 10 = d := Nat.mod_eq_of_lt (by omega)
      have h2 : d / 10 = 0 := Nat.div_eq_of_lt (by omega)
      rw [h1, h2]
      simp [decDigits]
    | cons t ts =>
      have hlast2 : ∀ k, (t :: ts).getLast? = some k → k ≠ 0 := by
        intro k hk
        exact hlast k ((List.getLast?_cons_cons ..).symm ▸ hk)
      have htail := ih (fun x hx => h x (by simp [hx])) hlast2
      obtain ⟨k, hk⟩ : ∃ k, (t :: ts).getLast? = some k := by
        cases hgl : (t :: ts).getLast? with
        | none => simp at hgl
        | some k => exact ⟨k, rfl⟩
      have hpos : 1 ≤ ofDecLE (t :: ts) := ofDecLE_pos _ k hk (hlast2 k hk)
      have hval : ofDecLE (d :: t :: ts) = ofDecLE (t :: ts) * 10 + d := by
        simp [ofDecLE]
      rw [hval, decDigits]
      have hne : ¬ (ofDecLE (t :: ts) * 10 + d = 0) := by omega
      simp only [hne, if_false]
      have h1 : (ofDecLE (t :: ts) * 10 + d) % 10 = d := by
        rw [Nat.mul_comm, Nat.mul_add_mod]
        exact Nat.mod_eq_of_lt (by omega)
      have h2 : (ofDecLE (t :: ts) * 10 + d) / 10 = ofDecLE (t :: ts) := by
        rw [Nat.mul_comm, Nat.mul_add_div (by omega)]
        have : d / 10 = 0 := Nat.div_eq_of_lt (by omega)
        omega
      rw [h1, h2, htail]

theorem charToNat_ofNat (n : Nat) (h : n < 55296) : (Char.ofNat n).toNat = n := by
  have hv : n.isValidChar := Or.inl h
  simp [Char.ofNat, hv, Char.ofNatAux, Char.toNat, UInt32.toNat, BitVec.toNat_ofNatLt]

theorem isUpperAZ_iff (c : Char) : isUpperAZ c = true ↔ 65 ≤ c.toNat ∧ c.toNat ≤ 90 := by
  simp only [isUpperAZ, Bool.and_eq_true, decide_eq_true_eq]
  constructor <;> intro h <;> exact ⟨h.1, h.2⟩

theorem isLowerAZ_iff (c : Char) : isLowerAZ c = true ↔ 97 ≤ c.toNat ∧ c.toNat ≤ 122 := by
  simp only [isLowerAZ, Bool.and_eq_true, decide_eq_true_eq]
  constructor <;> intro h <;> exact ⟨h.1, h.2⟩

theorem isDigitCh_iff (c : Char) : isDigitCh c = true ↔ 48 ≤ c.toNat ∧ c.toNat ≤ 57 := by
  simp only [isDigitCh, Bool.and_eq_true, decide_eq_true_eq]
  constructor <;> intro h <;> exact ⟨h.1, h.2⟩

theorem isColLetter_iff (c : Char) :
    isColLetter c = true ↔ (65 ≤ c.toNat ∧ c.toNat ≤ 90) ∨ (97 ≤ c.toNat ∧ c.toNat ≤ 122) := by
  simp only [isColLetter, Bool.or_eq_true, isUpperAZ_iff, isLowerAZ_iff]

theorem isColLetter_false_of_digit (c : Char) (h : isDigitCh c = true) :
    isColLetter c = false := by
  have hb := (isDigitCh_iff c).mp h
  rw [Bool.eq_false_iff]
  intro hc
  have := (isColLetter_iff c).mp hc
  omega

theorem isUpperAZ_false_of_toNat (c : Char) (h : c.toNat < 65 ∨ 90 < c.toNat) :
    isUpperAZ c = false := by
  rw [Bool.eq_false_iff]
  intro hc
  have := (isUpperAZ_iff c).mp hc
  omega

theorem colCharVal_bounds (c : Char) (h : isColLetter c = true) :
    1 ≤ colCharVal c ∧ colCharVal c ≤ 26 := by
  rcases (isColLetter_iff c).mp h with hu | hl
  · have hup : isUpperAZ c = true := (isUpperAZ_iff c).mpr hu
    simp [colCharVal, hup]
    omega
  · have hup : isUpperAZ c = false := isUpperAZ_false_of_toNat c (by omega)
    simp [colCharVal, hup]
    omega

theorem colChar_roundtrip (c : Char) (h : isUpperAZ c = true) :
    Char.ofNat (64 + colCharVal c) = c := by
  have hb := (isUpperAZ_iff c).mp h
  have hv : colCharVal c = c.toNat - 64 := by simp [colCharVal, h]
  rw [hv]
  have he : 64 + (c.toNat - 64) = c.toNat := by omega
  rw [he, Char.ofNat_toNat]

theorem decChar_roundtrip (c : Char) (h : isDigitCh c = true) :
    Char.ofNat (48 + (c.toNat - 48)) = c := by
  have hb := (isDigitCh_iff c).mp h
  have he : 48 + (c.toNat - 48) = c.toNat := by omega
  rw [he, Char.ofNat_toNat]

theorem foldl_eq_foldr_rev (f : Nat → Nat → Nat) (b : Nat) (l : List Nat) :
    l.foldl f b = l.reverse.foldr (fun x y => f y x) b := by
  rw [← List.foldl_reverse]
  simp

theorem colVal_eq_ofBijLE (L : List Char) :
    colVal L = ofBijLE ((L.map colCharVal).reverse) := by
  simp only [colVal, ofBijLE]
  rw [← List.foldl_map colCharVal (fun a d => a * 26 + d) L 0]
  exact foldl_eq_foldr_rev _ _ _

theorem digitsVal_eq_ofDecLE (D : List Char) :
    digitsVal D = ofDecLE ((D.map (fun c => c.toNat - 48)).reverse) := by
  simp only [digitsVal, ofDecLE]
  rw [← List.foldl_map (fun c : Char => c.toNat - 48) (fun a d => a * 10 + d) D 0]
  exact foldl_eq_foldr_rev _ _ _

theorem foldl26_ge_one (t : List Char) : ∀ a : Nat, 1 ≤ a →
    1 ≤ t.foldl (fun a c => a * 26 + colCharVal c) a := by
  induction t with
  | nil => intro a ha; simpa using ha
  | cons c r ih =>
    intro a ha
    simp only [List.foldl_cons]
    exact ih _ (by omega)

theorem colVal_pos (L : List Char) (h : L ≠ []) (hall : ∀ c ∈ L, isColLetter c = true) :
    1 ≤ colVal L := by
  cases L with
  | nil => exact absurd rfl h
  | cons c t =>
    have hc := colCharVal_bounds c (hall c (by simp))
    simp only [colVal, List.foldl_cons]
    exact foldl26_ge_one t _ (by omega)

theorem takeWhile_self_split (p : Char → Bool) (l : List Char) :
    l = l.takeWhile p ++ l.drop (l.takeWhile p).length := by
  induction l with
  | nil => rfl
  | cons c t ih =>
    by_cases h : p c
    · simp only [List.takeWhile_cons, h, if_true, List.length_cons, List.cons_append,
        List.drop_succ_cons]
      exact congrArg (c :: ·) ih
    · simp [List.takeWhile_cons, h]

theorem takeWhile_append_all (p : Char → Bool) (l1 l2 : List Char)
    (h1 : ∀ c ∈ l1, p c = true) (h2 : ∀ c, l2.head? = some c → p c = false) :
    (l1 ++ l2).takeWhile p = l1 := by
  induction l1 with
  | nil =>
    cases l2 with
    | nil => rfl
    | cons c t => simp [List.takeWhile_cons, h2 c rfl]
  | cons a t ih =>
    simp only [List.cons_append, List.takeWhile_cons, h1 a (by simp), if_true]
    exact congrArg (a :: ·) (ih (fun c hc => h1 c (by simp [hc])) )

theorem colLetters_colVal (L : List Char)
    (hall : ∀ c ∈ L, isUpperAZ c = true) :
    colLetters (colVal L) = L := by
  have hcol : ∀ c ∈ L, isColLetter c = true := by
    intro c hc
    simp [isColLetter, hall c hc]
  have hbij : bijDigits (ofBijLE ((L.map colCharVal).reverse)) = (L.map colCharVal).reverse := by
    apply bijDigits_ofBijLE
    intro d hd
    rw [List.mem_reverse] at hd
    obtain ⟨c, hc, hcd⟩ := List.mem_map.mp hd
    rw [← hcd]
    exact colCharVal_bounds c (hcol c hc)
  rw [colLetters, colVal_eq_ofBijLE, hbij, List.reverse_reverse, List.map_map]
  have : ∀ c ∈ L, ((fun d => Char.ofNat (64 + d)) ∘ colCharVal) c = c := by
    intro c hc
    simp only [Function.comp]
    exact colChar_roundtrip c (hall c hc)
  rw [List.map_congr_left this]
  simp

theorem head_decCharVal_ne_zero (D : List Char) (d0 : Char) (hh : D.head? = some d0)
    (hall : ∀ c ∈ D, isDigitCh c = true) (h0 : d0 ≠ '0') :
    ∀ k, ((D.map (fun c => c.toNat - 48)).reverse).getLast? = some k → k ≠ 0 := by
  intro k hk
  rw [List.getLast?_reverse, List.head?_map, hh] at hk
  simp at hk
  have hd0 : isDigitCh d0 = true := by
    cases D with
    | nil => simp at hh
    | cons a t =>
      simp at hh
      exact hh ▸ hall a (by simp)
  have hb := (isDigitCh_iff d0).mp hd0
  intro hk0
  apply h0
  have : d0.toNat = 48 := by omega
  have := decChar_roundtrip d0 hd0
  rw [‹d0.toNat = 48›] at this
  rw [← this]

theorem digitsVal_pos (D : List Char) (d0 : Char) (hh : D.head? = some d0)
    (hall : ∀ c ∈ D, isDigitCh c = true) (h0 : d0 ≠ '0') :
    1 ≤ digitsVal D := by
  rw [digitsVal_eq_ofDecLE]
  have hne : (D.map (fun c => c.toNat - 48)).reverse ≠ [] := by
    cases D with
    | nil => simp at hh
    | cons a t => simp
  obtain ⟨k, hk⟩ : ∃ k, ((D.map (fun c => c.toNat - 48)).reverse).getLast? = some k := by
    cases hgl : ((D.map (fun c => c.toNat - 48)).reverse).getLast? with
    | none => exact absurd (List.getLast?_eq_none_iff.mp hgl) hne
    | some k => exact ⟨k, rfl⟩
  exact ofDecLE_pos _ k hk (head_decCharVal_ne_zero D d0 hh hall h0 k hk)

theorem rowChars_digitsVal (D : List Char) (d0 : Char) (hh : D.head? = some d0)
    (hall : ∀ c ∈ D, isDigitCh c = true) (h0 : d0 ≠ '0') :
    rowChars (digitsVal D) = D := by
  have hdec : decDigits (ofDecLE ((D.map (fun c => c.toNat - 48)).reverse)) =
      (D.map (fun c => c.toNat - 48)).reverse := by
    apply decDigits_ofDecLE
    · intro d hd
      rw [List.mem_reverse] at hd
      obtain ⟨c, hc, hcd⟩ := List.mem_map.mp hd
      have := (isDigitCh_iff c).mp (hall c hc)
      omega
    · exact head_decCharVal_ne_zero D d0 hh hall h0
  rw [rowChars, digitsVal_eq_ofDecLE, hdec, List.reverse_reverse, List.map_map]
  have : ∀ c ∈ D, ((fun d => Char.ofNat (48 + d)) ∘ (fun c => c.toNat - 48)) c = c := by
    intro c hc
    simp only [Function.comp]
    exact decChar_roundtrip c (hall c hc)
  rw [List.map_congr_left this]
  simp

theorem stringMk_toList (s : String) : String.mk s.toList = s := by
  cases s
  rfl

theorem fromString_valid_roundtrip (s : String) (h : validCellRef s = true) :
    ∃ rc : Nat × Nat, tablePositionFromString s = some rc ∧ tablePositionToString rc = s := by
  have h' := h
  simp only [validCellRef, Bool.and_eq_true, Bool.not_eq_true', decide_eq_true_eq] at h'
  obtain ⟨⟨⟨hL, hD⟩, hall⟩, hhead⟩ := h'
  have hLne : s.toList.takeWhile isUpperAZ ≠ [] := by
    intro hnil
    rw [hnil] at hL
    simp at hL
  have hDne : s.toList.drop (s.toList.takeWhile isUpperAZ).length ≠ [] := by
    intro hnil
    rw [hnil] at hD
    simp at hD
  have hallmem : ∀ c ∈ s.toList.drop (s.toList.takeWhile isUpperAZ).length, isDigitCh c = true :=
    List.all_eq_true.mp hall
  have hLup : ∀ c ∈ s.toList.takeWhile isUpperAZ, isUpperAZ c = true :=
    fun c hc => List.mem_takeWhile_imp hc
  have hLcol : ∀ c ∈ s.toList.takeWhile isUpperAZ, isColLetter c = true := by
    intro c hc
    simp [isColLetter, hLup c hc]
  have hsplit : s.toList =
      s.toList.takeWhile isUpperAZ ++ s.toList.drop (s.toList.takeWhile isUpperAZ).length :=
    takeWhile_self_split isUpperAZ s.toList
  obtain ⟨d0, hd0⟩ :
      ∃ d0, (s.toList.drop (s.toList.takeWhile isUpperAZ).length).head? = some d0 := by
    cases hgl : (s.toList.drop (s.toList.takeWhile isUpperAZ).length).head? with
    | none => exact absurd (List.head?_eq_none_iff.mp hgl) hDne
    | some d0 => exact ⟨d0, rfl⟩
  have hd0dig : isDigitCh d0 = true := hallmem d0 (List.mem_of_mem_head? hd0)
  have h0 : d0 ≠ '0' := by
    intro he
    rw [he] at hd0
    exact hhead hd0
  have hTW : s.toList.takeWhile isColLetter = s.toList.takeWhile isUpperAZ := by
    conv_lhs => rw [hsplit]
    apply takeWhile_append_all
    · exact hLcol
    · intro c hc
      rw [hd0] at hc
      cases hc
      exact isColLetter_false_of_digit d0 hd0dig
  have hpos := digitsVal_pos _ d0 hd0 hallmem h0
  have hcpos := colVal_pos _ hLne hLcol
  have hfrom : tablePositionFromString s =
      some (digitsVal (s.toList.drop (s.toList.takeWhile isUpperAZ).length) - 1,
            colVal (s.toList.takeWhile isUpperAZ) - 1) := by
    have hLe : (s.toList.takeWhile isUpperAZ).isEmpty = false := by
      cases hcase : s.toList.takeWhile isUpperAZ with
      | nil => exact absurd hcase hLne
      | cons a t => rfl
    have hDe : (s.toList.drop (s.toList.takeWhile isUpperAZ).length).isEmpty = false := by
      cases hcase : s.toList.drop (s.toList.takeWhile isUpperAZ).length with
      | nil => exact absurd hcase hDne
      | cons a t => rfl
    simp only [tablePositionFromString, hTW]
    rw [if_neg (by rw [hLe]; simp), if_neg (by rw [hDe]; simp),
      if_neg (by rw [hall]; simp), if_neg (by omega)]
  refine ⟨_, hfrom, ?_⟩
  rw [tablePositionToString]
  simp only
  have hc1 : colVal (s.toList.takeWhile isUpperAZ) - 1 + 1 =
      colVal (s.toList.takeWhile isUpperAZ) := by omega
  have hr1 : digitsVal (s.toList.drop (s.toList.takeWhile isUpperAZ).length) - 1 + 1 =
      digitsVal (s.toList.drop (s.toList.takeWhile isUpperAZ).length) := by omega
  rw [hc1, hr1, colLetters_colVal _ hLup, rowChars_digitsVal _ d0 hd0 hallmem h0, ← hsplit,
    stringMk_toList]

theorem fromString_zero_row (s : String)
    (h : digitsVal (s.toList.drop ((s.toList.takeWhile isColLetter).length)) = 0) :
    tablePositionFromString s = none := by
  simp only [tablePositionFromString]
  by_cases h1 : (s.toList.takeWhile isColLetter).isEmpty = true
  · rw [if_pos h1]
  · rw [if_neg h1]
    by_cases h2 : (s.toList.drop (s.toList.takeWhile isColLetter).length).isEmpty = true
    · rw [if_pos h2]
    · rw [if_neg h2]
      by_cases h3 :
          (!(s.toList.drop (s.toList.takeWhile isColLetter).length).all isDigitCh) = true
      · rw [if_pos h3]
      · rw [if_neg h3, if_pos h]

theorem lowerCh_toNat (c : Char) (h : isUpperAZ c = true) : (lowerCh c).toNat = c.toNat + 32 := by
  have hb := (isUpperAZ_iff c).mp h
  simp only [lowerCh, h, if_true]
  exact charToNat_ofNat _ (by omega)

theorem isColLetter_lowerCh (c : Char) : isColLetter (lowerCh c) = isColLetter c := by
  by_cases h : isUpperAZ c = true
  · have hb := (isUpperAZ_iff c).mp h
    have ht := lowerCh_toNat c h
    have h1 : isColLetter (lowerCh c) = true := (isColLetter_iff _).mpr (Or.inr (by omega))
    have h2 : isColLetter c = true := (isColLetter_iff _).mpr (Or.inl (by omega))
    rw [h1, h2]
  · rw [show lowerCh c = c from by rw [lowerCh, if_neg h]]

theorem colCharVal_lowerCh (c : Char) : colCharVal (lowerCh c) = colCharVal c := by
  by_cases h : isUpperAZ c = true
  · have hb := (isUpperAZ_iff c).mp h
    have ht := lowerCh_toNat c h
    have hup : isUpperAZ (lowerCh c) = false := isUpperAZ_false_of_toNat _ (by omega)
    simp [colCharVal, hup, h]
    omega
  · rw [show lowerCh c = c from by rw [lowerCh, if_neg h]]

theorem isDigitCh_lowerCh (c : Char) : isDigitCh (lowerCh c) = isDigitCh c := by
  by_cases h : isUpperAZ c = true
  · have hb := (isUpperAZ_iff c).mp h
    have ht := lowerCh_toNat c h
    have h1 : isDigitCh (lowerCh c) = false := by
      rw [Bool.eq_false_iff]
      intro hd
      have := (isDigitCh_iff _).mp hd
      omega
    have h2 : isDigitCh c = false := by
      rw [Bool.eq_false_iff]
      intro hd
      have := (isDigitCh_iff _).mp hd
      omega
    rw [h1, h2]
  · rw [show lowerCh c = c from by rw [lowerCh, if_neg h]]

theorem lowerCh_digit_id (c : Char) (h : isDigitCh c = true) : lowerCh c = c := by
  have hb := (isDigitCh_iff c).mp h
  rw [lowerCh, if_neg]
  intro hu
  have := (isUpperAZ_iff c).mp hu
  omega

theorem fromString_lowercase (s : String) :
    tablePositionFromString (String.mk (s.toList.map lowerCh)) = tablePositionFromString s := by
  have htl : (String.mk (s.toList.map lowerCh)).toList = s.toList.map lowerCh := rfl
  have hpl : (isColLetter ∘ lowerCh) = isColLetter := funext isColLetter_lowerCh
  have hdg : (isDigitCh ∘ lowerCh) = isDigitCh := funext isDigitCh_lowerCh
  have h1 : (s.toList.map lowerCh).takeWhile isColLetter
      = (s.toList.takeWhile isColLetter).map lowerCh := by
    rw [List.takeWhile_map, hpl]
  have h2 : (s.toList.map lowerCh).drop ((s.toList.takeWhile isColLetter).map lowerCh).length
      = (s.toList.drop (s.toList.takeWhile isColLetter).length).map lowerCh := by
    rw [List.length_map, ← List.map_drop]
  have he1 : ((s.toList.takeWhile isColLetter).map lowerCh).isEmpty
      = (s.toList.takeWhile isColLetter).isEmpty := by
    cases s.toList.takeWhile isColLetter <;> rfl
  have he2 : ((s.toList.drop (s.toList.takeWhile isColLetter).length).map lowerCh).isEmpty
      = (s.toList.drop (s.toList.takeWhile isColLetter).length).isEmpty := by
    cases s.toList.drop (s.toList.takeWhile isColLetter).length <;> rfl
  have he3 : ((s.toList.drop (s.toList.takeWhile isColLetter).length).map lowerCh).all isDigitCh
      = (s.toList.drop (s.toList.takeWhile isColLetter).length).all isDigitCh := by
    rw [List.all_map, hdg]
  have hcv : colVal ((s.toList.takeWhile isColLetter).map lowerCh)
      = colVal (s.toList.takeWhile isColLetter) := by
    have hfun : (fun (a : Nat) (c : Char) => a * 26 + colCharVal (lowerCh c))
        = (fun (a : Nat) (c : Char) => a * 26 + colCharVal c) := by
      funext a c
      rw [colCharVal_lowerCh]
    simp only [colVal, List.foldl_map, hfun]
  simp only [tablePositionFromString, htl, h1, h2, he1, he2, he3, hcv]
  by_cases hA : (s.toList.drop (s.toList.takeWhile isColLetter).length).all isDigitCh = true
  · have hid : (s.toList.drop (s.toList.takeWhile isColLetter).length).map lowerCh
        = s.toList.drop (s.toList.takeWhile isColLetter).length := by
      have hm : ∀ c ∈ s.toList.drop (s.toList.takeWhile isColLetter).length, lowerCh c = c :=
        fun c hc => lowerCh_digit_id c (List.all_eq_true.mp hA c hc)
      rw [List.map_congr_left hm]
      simp
    rw [hid]
  · have hA' : (s.toList.drop (s.toList.takeWhile isColLetter).length).all isDigitCh = false :=
      Bool.eq_false_iff.mpr hA
    rw [hA']
    simp

/-- Claim C8: for every valid cell reference `s` matching
`[A-Z]+[1-9][0-9]*`, `toString (fromString s) = s`; column letters
decode case-insensitively as base-26 with symbols A–Z (`A1` maps to
row 0, col 0), and decoding fails for an empty string or a zero row. -/
theorem tablePosition_roundtrip :
    (∀ s : String, validCellRef s = true →
      ∃ rc : Nat × Nat, tablePositionFromString s = some rc ∧ tablePositionToString rc = s) ∧
    tablePositionFromString "A1" = some (0, 0) ∧
    (∀ s : String,
      tablePositionFromString (String.mk (s.toList.map lowerCh)) = tablePositionFromString s) ∧
    tablePositionFromString "" = none ∧
    (∀ s : String,
      digitsVal (s.toList.drop ((s.toList.takeWhile isColLetter).length)) = 0 →
      tablePositionFromString s = none) := by
  refine ⟨fromString_valid_roundtrip, by decide, fromString_lowercase, by decide,
    fromString_zero_row⟩

/-- Claim C8, witness: the valid reference `ZZ123` round-trips; the
mixed-case `Ab7` decodes as its lowercase form does; the zero-row `A0`
fails to decode. -/
theorem tablePosition_roundtrip_witness :
    validCellRef "ZZ123" = true ∧
    (∃ rc : Nat × Nat,
      tablePositionFromString "ZZ123" = some rc ∧ tablePositionToString rc = "ZZ123") ∧
    tablePositionFromString (String.mk ("Ab7".toList.map lowerCh)) =
      tablePositionFromString "Ab7" ∧
    digitsVal ("A0".toList.drop (("A0".toList.takeWhile isColLetter).length)) = 0 ∧
    tablePositionFromString "A0" = none :=
  ⟨by decide,
   tablePosition_roundtrip.1 "ZZ123" (by decide),
   tablePosition_roundtrip.2.2.1 "Ab7",
   by decide,
   tablePosition_roundtrip.2.2.2.2 "A0" (by decide)⟩
